import Mathlib

/-!
Shallow embedding of the measles forecasting pipeline (src/measles.py).

Dates are modelled as day numbers (days since 1970-01-01); with this
convention a day `d` is a Sunday exactly when `d % 7 = 3`.  The constants
used by the source are `2025-01-01 = 20089` (the cumulative anchor,
`start_date`), `2025-01-05 = 20093` (the first Sunday of 2025) and
`2025-12-31 = 20453` (the forecast horizon, `future_end`).

Case counts are integers after `load_data`'s `astype(int)`; model output
(`yhat`, bounds, cumulative sums) is continuous and modelled as `Rat`.
-/

namespace Measles

/-- A raw CSV cell as pandas sees it before cleaning: missing (`NaN`),
a value that parses (for the date column: to a day number; for the cases
column: to an integer), or non-null text that does not parse. -/
inductive Field where
  | null
  | num (n : Int)
  | text
deriving DecidableEq

/-- One raw CSV row with the two columns the pipeline reads. -/
structure RawObs where
  week_start : Field
  cases : Field
deriving DecidableEq

/-- `pd.to_datetime(df['week_start'], errors='coerce')` on one cell: a
parseable date becomes its day number, a null or unparseable cell NaT. -/
def parseDate : Field → Option Int
  | .num d => some d
  | _ => none

/-- `pd.to_numeric(df['cases'], errors='coerce').fillna(0)` on one cell
that survived `dropna`: a parseable number keeps its value, non-null
unparseable text is coerced to NaN and then filled with 0
(src/measles.py line 19). -/
def coerceCases : Field → Int
  | .num n => n
  | _ => 0

/-- Whether a row survives `dropna(subset=['week_start', 'cases'])` after
the date column was coerced (src/measles.py line 18): the date parsed and
the cases cell is not null.  A non-null unparseable cases cell is not NaN
at this point, so such a row is kept. -/
def keepRow (r : RawObs) : Bool :=
  (parseDate r.week_start).isSome && !(r.cases == Field.null)

/-- A row of the aggregated frame: `(ds, y)` = (week_start day number,
summed cases). -/
abbrev WPoint := Int × Int

/-- Ordering of aggregated rows by their `ds` column. -/
def leFst (a b : WPoint) : Prop := a.1 ≤ b.1

instance : DecidableRel leFst := fun a b => inferInstanceAs (Decidable (a.1 ≤ b.1))

instance : IsTotal WPoint leFst := ⟨fun a b => Int.le_total a.1 b.1⟩

instance : IsTrans WPoint leFst := ⟨fun _ _ _ h h' => le_trans h h'⟩

/-- The surviving rows of `load_data` with their coerced values, in input
order (before the final `sort_values`). -/
def cleanRows (raw : List RawObs) : List WPoint :=
  (raw.filter keepRow).map fun r => ((parseDate r.week_start).getD 0, coerceCases r.cases)

/-- `load_data` (src/measles.py lines 15-20): coerce the date column, drop
rows whose date is NaT or whose cases cell is null, coerce the cases
column filling unparseable text with 0, and sort by `week_start`. -/
def load_data (raw : List RawObs) : List WPoint :=
  List.insertionSort leFst (cleanRows raw)

/-- Sum of the `y` values of the rows whose `ds` equals `d`. -/
def sumAt (rows : List WPoint) (d : Int) : Int :=
  ((rows.filter fun p => p.1 == d).map Prod.snd).sum

/-- `data.groupby('week_start')['cases'].sum().reset_index()`
(src/measles.py line 50): one output row per distinct `ds` value, keys
sorted ascending, each carrying the sum of the matching `y` values. -/
def groupbySum (rows : List WPoint) : List WPoint :=
  ((List.insertionSort (· ≤ ·) (rows.map Prod.fst)).dedup).map fun d => (d, sumAt rows d)

/-- The aggregation stage: `weekly_cases` as built on src/measles.py
lines 50-51 from the loaded frame. -/
def weekly_cases (raw : List RawObs) : List WPoint :=
  groupbySum (load_data raw)

/-- Day `d` is a Sunday. -/
def isSunday (d : Int) : Bool := d % 7 == 3

/-- The first Sunday on or after day `a`. -/
def firstSunOnOrAfter (a : Int) : Int := a + (3 - a) % 7

/-- `pd.date_range(start=a, end=b, freq='W-SUN')`: every Sunday `s` with
`a ≤ s ≤ b`, ascending. -/
def dateRangeWSun (a b : Int) : List Int :=
  let f := firstSunOnOrAfter a
  if b < f then []
  else (List.range ((b - f).toNat / 7 + 1)).map fun (k : Nat) => f + 7 * (k : Int)

/-- Modelled from the spec: the start date of the calendar week containing
day `d` under the pipeline-wide Sunday week-start convention (§4.1).  Used
only to state claims about the aggregator; the source applies no such
mapping. -/
def specWeekStartOf (d : Int) : Int := d - ((d - 3) % 7)

/-- `weekly_cases['ds'].min()` for a non-empty frame (head-seeded fold). -/
def minDs : List WPoint → Int
  | [] => 0
  | p :: rest => rest.foldl (fun m q => min m q.1) p.1

/-- `weekly_cases['ds'].max()` for a non-empty frame (head-seeded fold). -/
def maxDs : List WPoint → Int
  | [] => 0
  | p :: rest => rest.foldl (fun m q => max m q.1) p.1

/-- `start_date = pd.Timestamp('2025-01-01')` (src/measles.py line 53). -/
def startDate : Int := 20089

/-- `future_end = pd.Timestamp('2025-12-31')` (src/measles.py line 64). -/
def futureEnd : Int := 20453

/-- The gap-fill step (src/measles.py lines 54-57): when the aggregated
series is non-empty and its minimum `ds` is strictly after `anchor`,
prepend a zero-valued row for every Sunday from `anchor` through the day
before that minimum and re-sort by `ds`; otherwise the frame is unchanged
(for an empty frame `min()` is NaT and `NaT > start_date` is False). -/
def gapFill (anchor : Int) (s : List WPoint) : List WPoint :=
  match s with
  | [] => s
  | _ :: _ =>
    if anchor < minDs s then
      List.insertionSort leFst
        (((dateRangeWSun anchor (minDs s - 1)).map fun d => (d, (0 : Int))) ++ s)
    else s

/-- Provenance tag, the `type` column of src/measles.py lines 68 and 71. -/
inductive Prov where
  | actual
  | forecast
deriving DecidableEq

/-- One row of the `forecast` frame (src/measles.py line 67). -/
structure FPoint where
  ds : Int
  yhat : Rat
  yhat_lower : Rat
  yhat_upper : Rat
deriving DecidableEq

/-- One row of the `combined` frame before the cumulative column is added
(src/measles.py line 73). -/
structure CPoint where
  ds : Int
  yhat : Rat
  type : Prov
deriving DecidableEq

/-- One row of the `combined` frame with the `cumulative_yhat` column:
`none` models NaN (a row the cumulative assignment did not reach). -/
structure CCPoint where
  ds : Int
  yhat : Rat
  type : Prov
  cumulative_yhat : Option Rat
deriving DecidableEq

/-- Ordering of combined rows by their `ds` column. -/
def leDs (a b : CPoint) : Prop := a.ds ≤ b.ds

instance : DecidableRel leDs := fun a b => inferInstanceAs (Decidable (a.ds ≤ b.ds))

instance : IsTotal CPoint leDs := ⟨fun a b => Int.le_total a.ds b.ds⟩

instance : IsTrans CPoint leDs := ⟨fun _ _ _ h h' => le_trans h h'⟩

/-- src/measles.py lines 70-74: tag the historical rows `Actual` and the
forecast rows `Forecast`, concatenate, and sort by `ds`.  No
deduplication of any kind is performed. -/
def combine (hist : List WPoint) (fcst : List FPoint) : List CPoint :=
  List.insertionSort leDs
    ((hist.map fun p => ⟨p.1, (p.2 : Rat), Prov.actual⟩) ++
     (fcst.map fun f => ⟨f.ds, f.yhat, Prov.forecast⟩))

/-- The walk behind src/measles.py line 75: the cumulative sum is taken
over the rows with `ds ≥ anchor` in frame order and written back to
exactly those rows; the remaining rows get NaN (`none`). -/
def withCumGo (anchor : Int) (acc : Rat) : List CPoint → List CCPoint
  | [] => []
  | p :: rest =>
    if anchor ≤ p.ds then
      ⟨p.ds, p.yhat, p.type, some (acc + p.yhat)⟩ :: withCumGo anchor (acc + p.yhat) rest
    else
      ⟨p.ds, p.yhat, p.type, none⟩ :: withCumGo anchor acc rest

/-- `combined['cumulative_yhat'] = combined.loc[combined['ds'] >= start_date,
'yhat'].cumsum()` (src/measles.py line 75). -/
def withCum (anchor : Int) (pts : List CPoint) : List CCPoint :=
  withCumGo anchor 0 pts

/-- `combined['cumulative_yhat'].fillna(0, inplace=True)` (src/measles.py
line 76): every NaN cumulative cell becomes the real number 0. -/
def fillna0 (pts : List CCPoint) : List CCPoint :=
  pts.map fun q => { q with cumulative_yhat := some (q.cumulative_yhat.getD 0) }

/-- The errors the embedded pipeline can surface. -/
inductive Err where
  | insufficientData
  | noRows
  | indexError
deriving DecidableEq

/-- Modelled from the spec: the fitting step of the Seasonal Forecaster is
Prophet, a third-party library whose code is not under src/.  Per the
spec's failure mode, fit fails with InsufficientData when fewer than two
rows of history are present (`model.fit(weekly_cases)`, src/measles.py
line 61); the rows of `weekly_cases` have pairwise-distinct `ds` keys, so
rows coincide with distinct weeks. -/
def prophetFitCheck (history : List WPoint) : Except Err Unit :=
  if history.length < 2 then .error .insufficientData else .ok ()

/-- An abstract deterministic seasonal model: for a future week it yields
`(yhat, yhat_lower, yhat_upper)`. -/
abbrev Model := Int → Rat × Rat × Rat

/-- The rows of `model.predict(future)[['ds','yhat','yhat_lower','yhat_upper']]`
for the given future week boundaries. -/
def predictPoints (m : Model) (futureDates : List Int) : List FPoint :=
  futureDates.map fun d => ⟨d, (m d).1, (m d).2.1, (m d).2.2⟩

/-- Modelled from the spec: the prediction step of the Seasonal Forecaster
(`model.predict(future)`, src/measles.py line 67) produces one row per
future week boundary from the abstract model; Prophet rejects an empty
prediction frame, surfaced here as `noRows`. -/
def prophetPredict (m : Model) (futureDates : List Int) : Except Err (List FPoint) :=
  if futureDates.isEmpty then .error .noRows else .ok (predictPoints m futureDates)

/-- `final_total = combined[combined['ds'] <= future_end]['cumulative_yhat']
.iloc[-1]` (src/measles.py line 125): `iloc[-1]` on an empty selection
raises IndexError, modelled as the error value. -/
def finalTotal (combined : List CCPoint) : Except Err Rat :=
  match (combined.filter fun p => p.ds ≤ futureEnd).getLast? with
  | none => .error .indexError
  | some p => .ok (p.cumulative_yhat.getD 0)

/-- The full pipeline of src/measles.py lines 50-76 and 125: aggregate,
gap-fill, fit (abstract model `m`), predict over the Sundays from one week
after the last historical week through `future_end`, combine with the
cumulative column, and read the headline total.  A step that raises stops
the script, so each stage's error short-circuits the rest. -/
def pipeline (m : Model) (raw : List RawObs) : Except Err (List CCPoint × Rat) :=
  match prophetFitCheck (gapFill startDate (weekly_cases raw)) with
  | .error e => .error e
  | .ok _ =>
    match prophetPredict m
        (dateRangeWSun (maxDs (gapFill startDate (weekly_cases raw)) + 7) futureEnd) with
    | .error e => .error e
    | .ok fcst =>
      match finalTotal (fillna0 (withCum startDate
          (combine (gapFill startDate (weekly_cases raw)) fcst))) with
      | .error e => .error e
      | .ok total =>
        .ok (fillna0 (withCum startDate
          (combine (gapFill startDate (weekly_cases raw)) fcst)), total)

/-- Whether a pipeline outcome is the IndexError of the headline selection
(src/measles.py line 125). -/
def isIndexErr : Except Err (List CCPoint × Rat) → Bool
  | .error .indexError => true
  | _ => false

/-! ### Facts about the embedded primitives -/

theorem mem_dateRangeWSun {a b d : Int} :
    d ∈ dateRangeWSun a b ↔ d % 7 = 3 ∧ a ≤ d ∧ d ≤ b := by
  unfold dateRangeWSun firstSunOnOrAfter
  set f := a + (3 - a) % 7 with hf
  by_cases hb : b < f
  · simp only [if_pos hb, List.not_mem_nil, false_iff]
    omega
  · simp only [if_neg hb, List.mem_map, List.mem_range]
    have hm : (((b - f).toNat : Int)) = b - f := by omega
    set m := (b - f).toNat with hmdef
    constructor
    · rintro ⟨k, hk, rfl⟩
      refine ⟨by omega, by omega, by omega⟩
    · rintro ⟨hd, had, hdb⟩
      have hdvd : (7 : Int) ∣ d - f := by omega
      obtain ⟨t, ht⟩ := hdvd
      refine ⟨t.toNat, by omega, by omega⟩

theorem pairwise_lt_dateRangeWSun (a b : Int) :
    List.Pairwise (· < ·) (dateRangeWSun a b) := by
  unfold dateRangeWSun
  by_cases hb : b < firstSunOnOrAfter a
  · simp [hb]
  · simp only [if_neg hb]
    refine List.pairwise_map.mpr ?_
    refine (List.pairwise_lt_range _).imp ?_
    intro x y h
    omega

theorem foldlMin_le (l : List WPoint) (x : Int) :
    l.foldl (fun m q => min m q.1) x ≤ x ∧
      ∀ r ∈ l, l.foldl (fun m q => min m q.1) x ≤ r.1 := by
  induction l generalizing x with
  | nil => simp
  | cons r rest ih =>
    refine ⟨le_trans (ih (min x r.1)).1 (min_le_left _ _), ?_⟩
    intro r' hr'
    rcases List.mem_cons.mp hr' with rfl | hr'
    · exact le_trans (ih (min x r'.1)).1 (min_le_right _ _)
    · exact (ih (min x r.1)).2 r' hr'

theorem foldlMin_cases (l : List WPoint) (x : Int) :
    l.foldl (fun m q => min m q.1) x = x ∨
      ∃ p ∈ l, p.1 = l.foldl (fun m q => min m q.1) x := by
  induction l generalizing x with
  | nil => simp
  | cons r rest ih =>
    rcases ih (min x r.1) with heq | ⟨p, hp, hpe⟩
    · rcases le_total x r.1 with hle | hle
      · left
        simpa [min_eq_left hle] using heq
      · right
        refine ⟨r, List.mem_cons_self _ _, ?_⟩
        simp only [List.foldl_cons, heq]
        omega
    · exact Or.inr ⟨p, List.mem_cons_of_mem _ hp, hpe⟩

theorem minDs_le {s : List WPoint} {p : WPoint} (hp : p ∈ s) : minDs s ≤ p.1 := by
  cases s with
  | nil => cases hp
  | cons q rest =>
    rcases List.mem_cons.mp hp with rfl | hp'
    · exact (foldlMin_le rest p.1).1
    · exact (foldlMin_le rest q.1).2 p hp'

theorem minDs_mem {s : List WPoint} (h : s ≠ []) : ∃ p ∈ s, p.1 = minDs s := by
  cases s with
  | nil => exact absurd rfl h
  | cons q rest =>
    rcases foldlMin_cases rest q.1 with heq | ⟨p, hp, hpe⟩
    · exact ⟨q, List.mem_cons_self _ _, heq.symm⟩
    · exact ⟨p, List.mem_cons_of_mem _ hp, hpe⟩

theorem groupbySum_keys (rows : List WPoint) :
    (groupbySum rows).map Prod.fst = (List.insertionSort (· ≤ ·) (rows.map Prod.fst)).dedup := by
  unfold groupbySum
  have hid : Prod.fst ∘ (fun d => (d, sumAt rows d)) = id := rfl
  rw [List.map_map, hid, List.map_id]

theorem groupbySum_keys_sorted (rows : List WPoint) :
    List.Pairwise (· < ·) ((groupbySum rows).map Prod.fst) := by
  rw [groupbySum_keys]
  have hsorted : List.Sorted (· ≤ ·) (List.insertionSort (· ≤ ·) (rows.map Prod.fst)) :=
    List.sorted_insertionSort _ _
  have hle : List.Pairwise (· ≤ ·)
      ((List.insertionSort (· ≤ ·) (rows.map Prod.fst)).dedup) :=
    List.Pairwise.sublist (List.dedup_sublist _) hsorted
  have hne : List.Pairwise (· ≠ ·)
      ((List.insertionSort (· ≤ ·) (rows.map Prod.fst)).dedup) :=
    List.nodup_dedup _
  refine (hle.and hne).imp ?_
  intro x y h
  exact lt_of_le_of_ne h.1 h.2

theorem mem_groupbySum {rows : List WPoint} {d v : Int} :
    (d, v) ∈ groupbySum rows ↔ (∃ r ∈ rows, r.1 = d) ∧ v = sumAt rows d := by
  unfold groupbySum
  simp only [List.mem_map, List.mem_dedup]
  constructor
  · rintro ⟨d', hd', heq⟩
    have h1 : d' = d := congrArg Prod.fst heq
    subst h1
    have hmem : d' ∈ rows.map Prod.fst :=
      (List.Perm.mem_iff (List.perm_insertionSort (· ≤ ·) _)).mp hd'
    exact ⟨List.mem_map.mp hmem, (congrArg Prod.snd heq).symm⟩
  · rintro ⟨hd, rfl⟩
    refine ⟨d, ?_, rfl⟩
    exact (List.Perm.mem_iff (List.perm_insertionSort (· ≤ ·) _)).mpr (List.mem_map.mpr hd)

theorem groupbySum_nil : groupbySum [] = [] := rfl

/-- The aggregated frame has pairwise-distinct keys, so its row count is
the number of distinct weeks. -/
theorem weekly_cases_keys_sorted (raw : List RawObs) :
    List.Pairwise (· < ·) ((weekly_cases raw).map Prod.fst) :=
  groupbySum_keys_sorted _

theorem withCumGo_length (anchor : Int) (acc : Rat) (pts : List CPoint) :
    (withCumGo anchor acc pts).length = pts.length := by
  induction pts generalizing acc with
  | nil => rfl
  | cons p rest ih =>
    unfold withCumGo
    by_cases h : anchor ≤ p.ds <;> simp [h, ih]

theorem fillna0_length (pts : List CCPoint) : (fillna0 pts).length = pts.length :=
  List.length_map _ _

theorem withCumGo_cum_ge (anchor : Int) (pts : List CPoint) :
    ∀ (acc : Rat), (∀ p ∈ pts, anchor ≤ p.ds) → (∀ p ∈ pts, 0 ≤ p.yhat) →
      ∀ (j : Nat) (q : CCPoint), (withCumGo anchor acc pts)[j]? = some q →
        ∃ c, q.cumulative_yhat = some c ∧ acc ≤ c := by
  induction pts with
  | nil =>
    intro acc _ _ j q hq
    simp [withCumGo] at hq
  | cons p rest ih =>
    intro acc hall hpos j q hq
    have hp : anchor ≤ p.ds := hall p (List.mem_cons_self _ _)
    have hy : (0 : Rat) ≤ p.yhat := hpos p (List.mem_cons_self _ _)
    rw [show withCumGo anchor acc (p :: rest) =
        ⟨p.ds, p.yhat, p.type, some (acc + p.yhat)⟩ ::
          withCumGo anchor (acc + p.yhat) rest from by
      simp [withCumGo, if_pos hp]] at hq
    match j with
    | 0 =>
      simp only [List.getElem?_cons_zero, Option.some.injEq] at hq
      exact ⟨acc + p.yhat, by rw [← hq], le_add_of_nonneg_right hy⟩
    | j' + 1 =>
      rw [List.getElem?_cons_succ] at hq
      obtain ⟨c, hc, hge⟩ := ih (acc + p.yhat)
        (fun r hr => hall r (List.mem_cons_of_mem _ hr))
        (fun r hr => hpos r (List.mem_cons_of_mem _ hr))
        j' q hq
      exact ⟨c, hc, le_trans (le_add_of_nonneg_right hy) hge⟩

theorem withCumGo_mono (anchor : Int) (pts : List CPoint) :
    ∀ (acc : Rat), List.Sorted leDs pts →
      (∀ p ∈ pts, anchor ≤ p.ds → 0 ≤ p.yhat) →
      ∀ (i j : Nat) (qi qj : CCPoint), i ≤ j →
        (withCumGo anchor acc pts)[i]? = some qi →
        (withCumGo anchor acc pts)[j]? = some qj →
        anchor ≤ qi.ds →
        ∃ ci cj, qi.cumulative_yhat = some ci ∧ qj.cumulative_yhat = some cj ∧ ci ≤ cj := by
  induction pts with
  | nil =>
    intro acc _ _ i j qi qj _ hqi _ _
    simp [withCumGo] at hqi
  | cons p rest ih =>
    intro acc hsort hpos i j qi qj hij hqi hqj ha
    obtain ⟨hhead, htail⟩ := List.sorted_cons.mp hsort
    by_cases hp : anchor ≤ p.ds
    · rw [show withCumGo anchor acc (p :: rest) =
          ⟨p.ds, p.yhat, p.type, some (acc + p.yhat)⟩ ::
            withCumGo anchor (acc + p.yhat) rest from by
        simp [withCumGo, if_pos hp]] at hqi hqj
      have hy : (0 : Rat) ≤ p.yhat := hpos p (List.mem_cons_self _ _) hp
      match i, j with
      | 0, 0 =>
        simp only [List.getElem?_cons_zero, Option.some.injEq] at hqi hqj
        refine ⟨acc + p.yhat, acc + p.yhat, ?_, ?_, le_refl _⟩
        · rw [← hqi]
        · rw [← hqj]
      | 0, j' + 1 =>
        simp only [List.getElem?_cons_zero, Option.some.injEq] at hqi
        rw [List.getElem?_cons_succ] at hqj
        obtain ⟨c, hc, hge⟩ := withCumGo_cum_ge anchor rest (acc + p.yhat)
          (fun r hr => le_trans hp (hhead r hr))
          (fun r hr => hpos r (List.mem_cons_of_mem _ hr) (le_trans hp (hhead r hr)))
          j' qj hqj
        exact ⟨acc + p.yhat, c, by rw [← hqi], hc, hge⟩
      | i' + 1, j' + 1 =>
        rw [List.getElem?_cons_succ] at hqi hqj
        exact ih (acc + p.yhat) htail
          (fun r hr => hpos r (List.mem_cons_of_mem _ hr))
          i' j' qi qj (by omega) hqi hqj ha
    · rw [show withCumGo anchor acc (p :: rest) =
          ⟨p.ds, p.yhat, p.type, none⟩ :: withCumGo anchor acc rest from by
        simp [withCumGo, if_neg hp]] at hqi hqj
      match i, j with
      | 0, _ =>
        simp only [List.getElem?_cons_zero, Option.some.injEq] at hqi
        rw [← hqi] at ha
        exact absurd ha hp
      | i' + 1, j' + 1 =>
        rw [List.getElem?_cons_succ] at hqi hqj
        exact ih acc htail
          (fun r hr => hpos r (List.mem_cons_of_mem _ hr))
          i' j' qi qj (by omega) hqi hqj ha

theorem mem_combine_hist {filled : List WPoint} {w : WPoint} (hw : w ∈ filled)
    (fcst : List FPoint) :
    (⟨w.1, (w.2 : Rat), Prov.actual⟩ : CPoint) ∈ combine filled fcst := by
  unfold combine
  refine (List.Perm.mem_iff (List.perm_insertionSort _ _)).mpr ?_
  exact List.mem_append_left _ (List.mem_map_of_mem _ hw)

theorem withCumGo_exists_ds (anchor : Int) (pts : List CPoint) :
    ∀ (acc : Rat) (c : CPoint), c ∈ pts →
      ∃ q ∈ withCumGo anchor acc pts, q.ds = c.ds := by
  induction pts with
  | nil =>
    intro _ c hc
    cases hc
  | cons p rest ih =>
    intro acc c hc
    rcases List.mem_cons.mp hc with rfl | hc'
    · by_cases hp : anchor ≤ c.ds
      · refine ⟨⟨c.ds, c.yhat, c.type, some (acc + c.yhat)⟩, ?_, rfl⟩
        rw [show withCumGo anchor acc (c :: rest) =
            ⟨c.ds, c.yhat, c.type, some (acc + c.yhat)⟩ ::
              withCumGo anchor (acc + c.yhat) rest from by
          simp [withCumGo, if_pos hp]]
        exact List.mem_cons_self _ _
      · refine ⟨⟨c.ds, c.yhat, c.type, none⟩, ?_, rfl⟩
        rw [show withCumGo anchor acc (c :: rest) =
            ⟨c.ds, c.yhat, c.type, none⟩ :: withCumGo anchor acc rest from by
          simp [withCumGo, if_neg hp]]
        exact List.mem_cons_self _ _
    · by_cases hp : anchor ≤ p.ds
      · obtain ⟨q, hq, hqds⟩ := ih (acc + p.yhat) c hc'
        refine ⟨q, ?_, hqds⟩
        rw [show withCumGo anchor acc (p :: rest) =
            ⟨p.ds, p.yhat, p.type, some (acc + p.yhat)⟩ ::
              withCumGo anchor (acc + p.yhat) rest from by
          simp [withCumGo, if_pos hp]]
        exact List.mem_cons_of_mem _ hq
      · obtain ⟨q, hq, hqds⟩ := ih acc c hc'
        refine ⟨q, ?_, hqds⟩
        rw [show withCumGo anchor acc (p :: rest) =
            ⟨p.ds, p.yhat, p.type, none⟩ :: withCumGo anchor acc rest from by
          simp [withCumGo, if_neg hp]]
        exact List.mem_cons_of_mem _ hq

theorem finalTotal_ok {combined : List CCPoint} {q : CCPoint}
    (hq : q ∈ combined) (hle : q.ds ≤ futureEnd) :
    ∃ t, finalTotal combined = .ok t := by
  unfold finalTotal
  have hmem : q ∈ combined.filter (fun p => decide (p.ds ≤ futureEnd)) :=
    List.mem_filter.mpr ⟨hq, by simpa using hle⟩
  cases heq : (combined.filter (fun p => decide (p.ds ≤ futureEnd))).getLast? with
  | none =>
    rw [List.getLast?_eq_none_iff] at heq
    rw [heq] at hmem
    cases hmem
  | some p =>
    exact ⟨_, rfl⟩

theorem gapFill_exists_early {weekly : List WPoint} (hne : weekly ≠ []) :
    ∃ w ∈ gapFill startDate weekly, w.1 ≤ futureEnd := by
  have hfut : futureEnd = 20453 := rfl
  have hstart : startDate = 20089 := rfl
  cases weekly with
  | nil => exact absurd rfl hne
  | cons p rest =>
    by_cases h : startDate < minDs (p :: rest)
    · rw [show gapFill startDate (p :: rest) = List.insertionSort leFst
          (((dateRangeWSun startDate (minDs (p :: rest) - 1)).map fun d => (d, (0 : Int)))
            ++ (p :: rest)) from by
        simp [gapFill, if_pos h]]
      by_cases h2 : minDs (p :: rest) ≤ futureEnd
      · obtain ⟨w, hw, hwm⟩ := minDs_mem (s := p :: rest) (by simp)
        refine ⟨w, ?_, by rw [hwm]; exact h2⟩
        exact (List.Perm.mem_iff (List.perm_insertionSort _ _)).mpr
          (List.mem_append_right _ hw)
      · refine ⟨(20093, 0), ?_, by decide⟩
        refine (List.Perm.mem_iff (List.perm_insertionSort _ _)).mpr
          (List.mem_append_left _ ?_)
        refine List.mem_map.mpr ⟨20093, ?_, rfl⟩
        refine mem_dateRangeWSun.mpr ⟨by decide, by decide, ?_⟩
        omega
    · rw [show gapFill startDate (p :: rest) = p :: rest from by
        simp [gapFill, if_neg h]]
      obtain ⟨w, hw, hwm⟩ := minDs_mem (s := p :: rest) (by simp)
      refine ⟨w, hw, ?_⟩
      rw [hwm]
      omega

theorem prophetFitCheck_error {h : List WPoint} {e : Err}
    (hh : prophetFitCheck h = .error e) : e = .insufficientData := by
  unfold prophetFitCheck at hh
  split at hh
  · exact (Except.error.inj hh).symm
  · cases hh

theorem prophetPredict_error {m : Model} {ds : List Int} {e : Err}
    (hh : prophetPredict m ds = .error e) : e = .noRows := by
  unfold prophetPredict at hh
  split at hh
  · exact (Except.error.inj hh).symm
  · cases hh

theorem weekly_nonempty_of_fit_ok {raw : List RawObs} {u : Unit}
    (hfit : prophetFitCheck (gapFill startDate (weekly_cases raw)) = .ok u) :
    weekly_cases raw ≠ [] := by
  intro hnil
  rw [hnil] at hfit
  exact Except.noConfusion hfit

theorem withCumGo_before_anchor (anchor : Int) (pts : List CPoint) :
    ∀ (acc : Rat), ∀ q ∈ withCumGo anchor acc pts, q.ds < anchor →
      q.cumulative_yhat = none := by
  induction pts with
  | nil =>
    intro acc q hq
    cases hq
  | cons p rest ih =>
    intro acc q hq hlt
    by_cases hp : anchor ≤ p.ds
    · rw [show withCumGo anchor acc (p :: rest) =
          ⟨p.ds, p.yhat, p.type, some (acc + p.yhat)⟩ ::
            withCumGo anchor (acc + p.yhat) rest from by
        simp [withCumGo, if_pos hp]] at hq
      rcases List.mem_cons.mp hq with rfl | hq'
      · exact absurd hp (by simpa using hlt)
      · exact ih (acc + p.yhat) q hq' hlt
    · rw [show withCumGo anchor acc (p :: rest) =
          ⟨p.ds, p.yhat, p.type, none⟩ :: withCumGo anchor acc rest from by
        simp [withCumGo, if_neg hp]] at hq
      rcases List.mem_cons.mp hq with rfl | hq'
      · rfl
      · exact ih acc q hq' hlt

theorem pipeline_fit_error {m : Model} {raw : List RawObs} {e : Err}
    (hfit : prophetFitCheck (gapFill startDate (weekly_cases raw)) = .error e) :
    pipeline m raw = .error e := by
  unfold pipeline
  rw [hfit]

theorem pipeline_pred_error {m : Model} {raw : List RawObs} {u : Unit} {e : Err}
    (hfit : prophetFitCheck (gapFill startDate (weekly_cases raw)) = .ok u)
    (hpred : prophetPredict m
        (dateRangeWSun (maxDs (gapFill startDate (weekly_cases raw)) + 7) futureEnd)
      = .error e) :
    pipeline m raw = .error e := by
  unfold pipeline
  rw [hfit, hpred]

theorem pipeline_totals {m : Model} {raw : List RawObs} {u : Unit} {fcst : List FPoint}
    (hfit : prophetFitCheck (gapFill startDate (weekly_cases raw)) = .ok u)
    (hpred : prophetPredict m
        (dateRangeWSun (maxDs (gapFill startDate (weekly_cases raw)) + 7) futureEnd)
      = .ok fcst) :
    pipeline m raw =
      match finalTotal (fillna0 (withCum startDate
          (combine (gapFill startDate (weekly_cases raw)) fcst))) with
      | .error e => .error e
      | .ok total =>
        .ok (fillna0 (withCum startDate
          (combine (gapFill startDate (weekly_cases raw)) fcst)), total) := by
  unfold pipeline
  rw [hfit, hpred]

/-! ### Claim theorems -/

/-- C1 (amended): in the intermediate frame of line 75 the cumulative cell
of every point strictly before the anchor is absent (NaN), but line 76's
`fillna(0)` then materializes it as the real number 0, so in the final
combined sequence a pre-anchor point carries `cumulative_yhat = 0` and is
not distinguishable from a computed cumulative of 0. -/
theorem cumulative_absent_then_zero_filled (anchor : Int) (pts : List CPoint) :
    (∀ q ∈ withCum anchor pts, q.ds < anchor → q.cumulative_yhat = none) ∧
    (∀ q ∈ fillna0 (withCum anchor pts), q.ds < anchor → q.cumulative_yhat = some 0) := by
  refine ⟨withCumGo_before_anchor anchor pts 0, ?_⟩
  intro q hq hlt
  obtain ⟨q0, hq0, rfl⟩ := List.mem_map.mp hq
  have hds : q0.ds < anchor := hlt
  have hnone : q0.cumulative_yhat = none :=
    withCumGo_before_anchor anchor pts 0 q0 hq0 hds
  show some (q0.cumulative_yhat.getD 0) = some 0
  rw [hnone]
  rfl

set_option maxRecDepth 8000 in
/-- C1 (counterexample): a run on data that starts one week before the
anchor ends with the pre-anchor point carrying `cumulative_yhat = 0`, a
materialized real value, not an absent one. -/
theorem cumulative_zero_before_anchor_cex :
    ((pipeline (fun _ => (1, 0, 2))
        [⟨Field.num 20086, Field.num 5⟩, ⟨Field.num 20093, Field.num 3⟩]).map
      fun r => r.1.head?) = .ok (some ⟨20086, 5, Prov.actual, some 0⟩) ∧
    (20086 : Int) < startDate :=
  ⟨rfl, by decide⟩

/-- C3 (amended): the merge of src/measles.py lines 73-74 is a plain
concatenation sorted by `ds`: for every week the combined sequence holds
as many points as the historical and forecast frames hold together, so a
week present in both keeps both points and nothing is dropped. -/
theorem combine_keeps_both_counts (hist : List WPoint) (fcst : List FPoint) (d : Int) :
    (combine hist fcst).countP (fun p => p.ds == d) =
      hist.countP (fun p => p.1 == d) + fcst.countP (fun fp => fp.ds == d) := by
  unfold combine
  rw [List.Perm.countP_eq _ (List.perm_insertionSort _ _), List.countP_append,
    List.countP_map, List.countP_map]
  rfl

/-- C3 (counterexample): a week present both as an Actual and a Forecast
point yields two CombinedPoints for that week, not one. -/
theorem combine_duplicate_week_cex :
    combine [(20093, 5)] [⟨20093, 3, 2, 4⟩] =
      [⟨20093, 5, Prov.actual⟩, ⟨20093, 3, Prov.forecast⟩] ∧
    (combine [(20093, 5)] [⟨20093, 3, 2, 4⟩]).countP (fun p => p.ds == 20093) = 2 :=
  ⟨by decide, by decide⟩

/-- C4 (amended): the aggregator groups by the exact `week_start` value:
one output row per distinct parsed date among the kept rows, keys strictly
ascending, each value the sum of the coerced counts of the rows with that
exact date; the rows entering the sum are exactly the cleaned rows, and
empty input yields an empty series.  No calendar-week mapping is applied. -/
theorem weekly_cases_groups_by_exact_date (raw : List RawObs) :
    List.Pairwise (· < ·) ((weekly_cases raw).map Prod.fst) ∧
    (∀ d v : Int, (d, v) ∈ weekly_cases raw ↔
      (∃ r ∈ load_data raw, r.1 = d) ∧ v = sumAt (load_data raw) d) ∧
    (load_data raw).Perm (cleanRows raw) ∧
    weekly_cases ([] : List RawObs) = [] :=
  ⟨weekly_cases_keys_sorted raw, fun _ _ => mem_groupbySum,
    List.perm_insertionSort _ _, rfl⟩

/-- C4 (counterexample): two observations on the Monday and the Tuesday of
the same calendar week (Sunday 2025-01-05) yield two WeeklyPoints keyed by
the raw dates, not a single point at the week start with the summed
count. -/
theorem weekly_cases_same_week_split_cex :
    weekly_cases [⟨Field.num 20094, Field.num 3⟩, ⟨Field.num 20095, Field.num 4⟩]
      = [(20094, 3), (20095, 4)] ∧
    specWeekStartOf 20094 = 20093 ∧ specWeekStartOf 20095 = 20093 ∧
    (weekly_cases [⟨Field.num 20094, Field.num 3⟩, ⟨Field.num 20095, Field.num 4⟩]).length
      = 2 :=
  ⟨by decide, by decide, by decide, by decide⟩

/-- C5: when the series handed to the fitting step (post gap-fill) has
fewer than two rows — its rows are distinct weeks — the pipeline surfaces
InsufficientData and produces no forecast and no combined output. -/
theorem fit_fails_on_short_history (m : Model) (raw : List RawObs)
    (h : (gapFill startDate (weekly_cases raw)).length < 2) :
    pipeline m raw = .error .insufficientData := by
  unfold pipeline
  rw [show prophetFitCheck (gapFill startDate (weekly_cases raw)) =
      .error .insufficientData from by
    unfold prophetFitCheck
    rw [if_pos h]]

/-- C5 (witness): the empty history reaches the InsufficientData error. -/
theorem fit_fails_on_short_history_w :
    (gapFill startDate (weekly_cases ([] : List RawObs))).length < 2 ∧
    pipeline (fun _ => (1, 0, 2)) ([] : List RawObs) = .error .insufficientData :=
  ⟨by decide, fit_fails_on_short_history _ _ (by decide)⟩

/-- C6 (amended): a row whose date is null or unparseable, or whose count
is null, is silently dropped by the aggregation (it contributes nothing);
but a row with a parseable date and a non-null unparseable count is kept
with its count coerced to 0, exactly as if the count had been 0 — it is
not excluded.  No error is raised in either case. -/
theorem malformed_rows_dropped_or_zeroed (r : RawObs) (raw : List RawObs) :
    ((parseDate r.week_start = none ∨ r.cases = Field.null) →
      weekly_cases (r :: raw) = weekly_cases raw) ∧
    ((parseDate r.week_start = none ∨ r.cases = Field.null) ↔ keepRow r = false) ∧
    (∀ d : Int, weekly_cases (⟨Field.num d, Field.text⟩ :: raw) =
      weekly_cases (⟨Field.num d, Field.num 0⟩ :: raw)) := by
  have hiff : (parseDate r.week_start = none ∨ r.cases = Field.null) ↔ keepRow r = false := by
    rcases r with ⟨w, c⟩
    cases w <;> cases c <;> simp [keepRow, parseDate]
  refine ⟨?_, hiff, ?_⟩
  · intro hmal
    have hkeep : keepRow r = false := hiff.mp hmal
    have hclean : cleanRows (r :: raw) = cleanRows raw := by
      unfold cleanRows
      rw [List.filter_cons_of_neg (by simp [hkeep])]
    unfold weekly_cases load_data
    rw [hclean]
  · intro d
    have hclean : cleanRows (⟨Field.num d, Field.text⟩ :: raw) =
        cleanRows (⟨Field.num d, Field.num 0⟩ :: raw) := by
      unfold cleanRows
      rw [List.filter_cons_of_pos (by simp [keepRow, parseDate]),
        List.filter_cons_of_pos (by simp [keepRow, parseDate])]
      rfl
    unfold weekly_cases load_data
    rw [hclean]

/-- C6 (counterexample): a single observation with a parseable date and a
non-null unparseable count is not excluded: it produces a (zero-valued)
WeeklyPoint, so the output series is not empty. -/
theorem unparseable_count_kept_cex :
    weekly_cases [⟨Field.num 20152, Field.text⟩] = [(20152, 0)] ∧
    (weekly_cases [⟨Field.num 20152, Field.text⟩]).length = 1 :=
  ⟨by decide, by decide⟩

/-- C7 (amended): in the final combined sequence the cumulative column is
non-decreasing from the anchor onward provided every point on/after the
anchor has a non-negative value; the code performs an unguarded running
sum, so this is the exact condition under which monotonicity holds. -/
theorem cumulative_nondecreasing_of_nonneg (anchor : Int) (pts : List CPoint)
    (hs : List.Sorted leDs pts)
    (hpos : ∀ p ∈ pts, anchor ≤ p.ds → 0 ≤ p.yhat)
    (i j : Nat) (qi qj : CCPoint) (hij : i ≤ j)
    (hqi : (fillna0 (withCum anchor pts))[i]? = some qi)
    (hqj : (fillna0 (withCum anchor pts))[j]? = some qj)
    (ha : anchor ≤ qi.ds) :
    ∃ ci cj, qi.cumulative_yhat = some ci ∧ qj.cumulative_yhat = some cj ∧ ci ≤ cj := by
  unfold fillna0 at hqi hqj
  rw [List.getElem?_map] at hqi hqj
  obtain ⟨q, hq, rfl⟩ := Option.map_eq_some'.mp hqi
  obtain ⟨q', hq', rfl⟩ := Option.map_eq_some'.mp hqj
  obtain ⟨ci, cj, hci, hcj, hle⟩ :=
    withCumGo_mono anchor pts 0 hs hpos i j q q' hij hq hq' ha
  refine ⟨ci, cj, ?_, ?_, hle⟩
  · show some (q.cumulative_yhat.getD 0) = some ci
    rw [hci]
    rfl
  · show some (q'.cumulative_yhat.getD 0) = some cj
    rw [hcj]
    rfl

/-- C7 (witness): the theorem applies to a concrete sorted two-point
sequence with non-negative values. -/
theorem cumulative_nondecreasing_of_nonneg_w :
    List.Sorted leDs [⟨20093, 10, Prov.actual⟩, ⟨20100, 2, Prov.forecast⟩] ∧
    (∃ ci cj,
      (⟨20093, 10, Prov.actual, some 10⟩ : CCPoint).cumulative_yhat = some ci ∧
      (⟨20100, 2, Prov.forecast, some 12⟩ : CCPoint).cumulative_yhat = some cj ∧
      ci ≤ cj) :=
  ⟨by decide,
    cumulative_nondecreasing_of_nonneg 20089
      [⟨20093, 10, Prov.actual⟩, ⟨20100, 2, Prov.forecast⟩]
      (by decide) (by intro p hp h; fin_cases hp <;> norm_num) 0 1
      ⟨20093, 10, Prov.actual, some 10⟩ ⟨20100, 2, Prov.forecast, some 12⟩
      (by decide) (by with_unfolding_all rfl) (by with_unfolding_all rfl) (by decide)⟩

/-- C7 (counterexample): a forecast point with a negative predicted value
makes the cumulative column strictly decrease between two points that are
both on/after the anchor. -/
theorem cumulative_decreases_cex :
    fillna0 (withCum 20089 (combine [(20093, 10), (20100, 0)] [⟨20107, -5, -6, -4⟩])) =
      [⟨20093, 10, Prov.actual, some 10⟩, ⟨20100, 0, Prov.actual, some 10⟩,
        ⟨20107, -5, Prov.forecast, some 5⟩] ∧
    (20089 : Int) ≤ 20100 ∧ (20100 : Int) < 20107 ∧ (5 : Rat) < 10 :=
  ⟨by with_unfolding_all rfl, by decide, by decide, by norm_num⟩

/-- C8: when the aggregated series is non-empty, sorted, and starts
strictly after the anchor, the gap filler prepends a zero-valued point at
exactly every Sunday week boundary from the anchor up to (but not
including) the earliest week, the result stays sorted ascending; a series
that is empty or starts on/before the anchor is returned unchanged; the
spec's worked example holds. -/
theorem gapFill_fills_gap (anchor : Int) (s : List WPoint)
    (hs : List.Sorted leFst s) (hne : s ≠ []) (hgap : anchor < minDs s) :
    (gapFill anchor s =
        ((dateRangeWSun anchor (minDs s - 1)).map fun d => (d, (0 : Int))) ++ s ∧
      List.Sorted leFst (gapFill anchor s) ∧
      (∀ d : Int, d ∈ dateRangeWSun anchor (minDs s - 1) ↔
        isSunday d = true ∧ anchor ≤ d ∧ d < minDs s)) ∧
    gapFill 20093 [(20121, 7)] =
      [(20093, 0), (20100, 0), (20107, 0), (20114, 0), (20121, 7)] ∧
    (∀ (a : Int) (t : List WPoint), t = [] ∨ minDs t ≤ a → gapFill a t = t) := by
  have hsorted_all : List.Sorted leFst
      (((dateRangeWSun anchor (minDs s - 1)).map fun d => (d, (0 : Int))) ++ s) := by
    refine List.pairwise_append.mpr ⟨?_, hs, ?_⟩
    · refine List.pairwise_map.mpr ?_
      refine (pairwise_lt_dateRangeWSun _ _).imp ?_
      intro x y h
      exact le_of_lt h
    · rintro x hx y hy
      obtain ⟨d, hd, rfl⟩ := List.mem_map.mp hx
      have hdb := (mem_dateRangeWSun.mp hd).2.2
      have hmin := minDs_le hy
      show d ≤ y.1
      omega
  have hmain : gapFill anchor s =
      ((dateRangeWSun anchor (minDs s - 1)).map fun d => (d, (0 : Int))) ++ s := by
    cases s with
    | nil => exact absurd rfl hne
    | cons p rest =>
      rw [show gapFill anchor (p :: rest) = List.insertionSort leFst
          ((((dateRangeWSun anchor (minDs (p :: rest) - 1)).map
            fun d => (d, (0 : Int)))) ++ (p :: rest)) from by
        simp [gapFill, if_pos hgap]]
      exact List.Sorted.insertionSort_eq hsorted_all
  refine ⟨⟨hmain, ?_, ?_⟩, by decide, ?_⟩
  · rw [hmain]
    exact hsorted_all
  · intro d
    rw [mem_dateRangeWSun]
    unfold isSunday
    simp only [beq_iff_eq]
    omega
  · rintro a t (rfl | hle)
    · rfl
    · cases t with
      | nil => rfl
      | cons p rest =>
        simp [gapFill, if_neg (not_lt.mpr hle)]

/-- C8 (witness): the spec's worked example satisfies the hypotheses:
anchor 2025-01-05, earliest real data 2025-02-02, four zero weeks. -/
theorem gapFill_fills_gap_w :
    (20093 : Int) < minDs [(20121, 7)] ∧
    gapFill 20093 [(20121, 7)] =
      ((dateRangeWSun 20093 (minDs [(20121, 7)] - 1)).map fun d => (d, (0 : Int)))
        ++ [(20121, 7)] :=
  ⟨by decide,
    (gapFill_fills_gap 20093 [(20121, 7)] (by decide) (by decide) (by decide)).1.1⟩

/-- C10 (amended): the headline selection fails exactly when no combined
point lies on/before the horizon, but no pipeline input reaches that
state: whenever the headline computation runs, the (gap-filled) history
contributes a point on/before 2025-12-31, so the IndexError branch is
unreachable and a total is returned. -/
theorem pipeline_never_index_error (m : Model) (raw : List RawObs) :
    isIndexErr (pipeline m raw) = false := by
  cases hfit : prophetFitCheck (gapFill startDate (weekly_cases raw)) with
  | error e =>
    rw [pipeline_fit_error hfit, prophetFitCheck_error hfit]
    rfl
  | ok u =>
    cases hpred : prophetPredict m
        (dateRangeWSun (maxDs (gapFill startDate (weekly_cases raw)) + 7) futureEnd) with
    | error e =>
      rw [pipeline_pred_error hfit hpred, prophetPredict_error hpred]
      rfl
    | ok fcst =>
      rw [pipeline_totals hfit hpred]
      obtain ⟨w, hw, hwle⟩ := gapFill_exists_early (weekly_nonempty_of_fit_ok hfit)
      have hc := mem_combine_hist hw fcst
      obtain ⟨q, hq, hqds⟩ := withCumGo_exists_ds startDate _ 0 _ hc
      have hq2 : ({ q with cumulative_yhat := some (q.cumulative_yhat.getD 0) } : CCPoint)
          ∈ fillna0 (withCum startDate
              (combine (gapFill startDate (weekly_cases raw)) fcst)) :=
        List.mem_map_of_mem _ hq
      have hle : ({ q with cumulative_yhat := some (q.cumulative_yhat.getD 0) } : CCPoint).ds
          ≤ futureEnd := by
        show q.ds ≤ futureEnd
        rw [hqds]
        exact hwle
      obtain ⟨t, ht⟩ := finalTotal_ok hq2 hle
      rw [ht]
      rfl

set_option maxRecDepth 8000 in
/-- C10 (counterexample): with every observation dated after the horizon
(two weeks in January 2026) the run does not raise the headline
IndexError: it stops earlier, at the prediction step, because the future
date range from one week after the last observation through 2025-12-31 is
empty. -/
theorem all_late_observations_cex :
    pipeline (fun _ => (1, 0, 2))
        [⟨Field.num 20457, Field.num 1⟩, ⟨Field.num 20464, Field.num 2⟩]
      = .error .noRows ∧
    isIndexErr (pipeline (fun _ => (1, 0, 2))
        [⟨Field.num 20457, Field.num 1⟩, ⟨Field.num 20464, Field.num 2⟩]) = false :=
  ⟨rfl, rfl⟩

end Measles
